import Mathlib

/-!
Verification of the Pia Carrot 3.3 text extraction / repack tool.

Shallow embedding of `dump.py` and `repack.py`.  Bytes are `Nat` values
(< 256 in every input we build), byte buffers are `List Nat`, and logical
text is `List Char`.

The scripts delegate character conversion to Python's `shift_jis` codec.
That codec is external to the repository, so it is modelled here
structurally: single bytes below 0x80 are ASCII, bytes 0xA1..0xDF are the
halfwidth katakana block U+FF61..U+FF9F (exactly as in Python), and a
structurally valid lead/trail pair is mapped injectively into the CJK
block starting at U+4E00 (the real codec maps each assigned pair to some
kana/ideograph; the model treats every structurally valid pair as
assigned and does not reproduce the real table's per-pair gaps).  The
CPython decoder reports every illegal byte with an error span of exactly
one byte (verified behaviour: `b"\xff\xfe"` yields two one-byte errors,
`b"\x81\x39"` yields an error for 0x81 and then decodes 0x39), which the
model reproduces.  Floating point threshold comparisons of the classifier
(0.05, 0.15, 0.55, 0.5) are modelled as exact rational comparisons by
cross multiplication; no claim evaluates the classifier at a borderline
ratio where the binary representation of the literal could differ.
-/

/-- GAME-SPECIFIC BYTES: `terminator = b"\x00"` from both scripts. -/
def terminatorByte : Nat := 0

/-- GAME-SPECIFIC BYTES: `newline_char = b"\x0a"` from both scripts. -/
def newlineByte : Nat := 0x0A

/-- OFFSET_MIN_VALID from dump.py: strings below this offset are ignored. -/
def OFFSET_MIN_VALID : Nat := 0x0010C000

/-- Uppercase hex digit for a value below 16 (`hex().upper()`). -/
def hexChar (n : Nat) : Char :=
  if n < 10 then Char.ofNat (48 + n) else Char.ofNat (55 + n)

/-- Two uppercase hex digits of one byte. -/
def hexByte (b : Nat) : List Char :=
  [hexChar (b / 16 % 16), hexChar (b % 16)]

/-- Escape token produced by `custom_sjis_error_handler` for one bad byte:
`"<$" + bad_bytes.hex().upper() + "$>"`.  The CPython shift_jis decoder
always reports illegal input one byte at a time, so the handler only ever
sees a single byte here. -/
def escapeTok (b : Nat) : List Char :=
  '<' :: '$' :: hexByte b ++ ['$', '>']

/-- Lead bytes of the modelled double-byte range (rows of JIS X 0208 that
carry assignments: 0x81..0x9F and 0xE0..0xEA). -/
def isLead (b : Nat) : Bool :=
  (0x81 ≤ b && b ≤ 0x9F) || (0xE0 ≤ b && b ≤ 0xEA)

/-- Trail bytes of the double-byte range: 0x40..0x7E and 0x80..0xFC. -/
def isTrail (b : Nat) : Bool :=
  (0x40 ≤ b && b ≤ 0x7E) || (0x80 ≤ b && b ≤ 0xFC)

/-- Row index of a lead byte (0..41). -/
def leadIdx (b : Nat) : Nat :=
  if b ≤ 0x9F then b - 0x81 else 31 + (b - 0xE0)

/-- Cell index of a trail byte (0..187). -/
def trailIdx (b : Nat) : Nat :=
  if b ≤ 0x7E then b - 0x40 else 63 + (b - 0x80)

/-- Modelled character for a structurally valid double-byte pair: an
injective map into the CJK ideograph block, so that decoded pairs count
as Japanese and printable for the classifier exactly as real decoded
ideographs do. -/
def twoByteChar (l t : Nat) : Char :=
  Char.ofNat (0x4E00 + leadIdx l * 188 + trailIdx t)

/-- Decoding of a terminator-free chunk, i.e. the behaviour of
`processed_chunk.decode("shift_jis", errors="custom_sjis")`.  Every byte
the codec cannot consume becomes a one-byte escape token and decoding
resumes at the next byte (observed CPython behaviour, see header). -/
def decodeSjis : List Nat → List Char
  | [] => []
  | b :: rest =>
    if b < 0x80 then Char.ofNat b :: decodeSjis rest
    else if 0xA1 ≤ b && b ≤ 0xDF then
      Char.ofNat (0xFF61 + (b - 0xA1)) :: decodeSjis rest
    else if isLead b then
      match rest with
      | t :: rest2 =>
        if isTrail t then twoByteChar b t :: decodeSjis rest2
        else escapeTok b ++ decodeSjis (t :: rest2)
      | [] => escapeTok b ++ decodeSjis []
    else escapeTok b ++ decodeSjis rest

/-- True when the codec consumes the whole chunk without any escape token,
i.e. when decoding "does not fall back to replacement". -/
def decodeClean : List Nat → Bool
  | [] => true
  | b :: rest =>
    if b < 0x80 then decodeClean rest
    else if 0xA1 ≤ b && b ≤ 0xDF then decodeClean rest
    else if isLead b then
      match rest with
      | t :: rest2 => if isTrail t then decodeClean rest2 else false
      | [] => false
    else false

/-- The dump script's `chunk.replace(newline_char, b"\n")`.  Both sides
are the byte 0x0A, so the substitution is the identity; it is kept
literally. -/
def replaceNewlines (chunk : List Nat) : List Nat :=
  chunk.map (fun b => if b = newlineByte then 0x0A else b)

/-- Python `data.find(terminator_byte, offset)`: index of the first
occurrence of the terminator at or after `offset`, `none` for -1. -/
def findTerm (data : List Nat) (off : Nat) (tb : Nat) : Option Nat :=
  match (data.drop off).findIdx? (· = tb) with
  | some k => some (off + k)
  | none => none

/-- Python slice `data[offset:end_index]`. -/
def sliceBytes (data : List Nat) (off stop : Nat) : List Nat :=
  (data.drop off).take (stop - off)

/-- `read_string_from` from dump.py.  Returns `none` ("absent") when the
offset is past the end of the image or no terminator byte follows; the
`try/except` around `.decode` never fires because the custom error
handler makes decoding total. -/
def readStringFrom (data : List Nat) (off : Nat) (tb : Nat) : Option (List Char) :=
  if off ≥ data.length then none
  else
    match findTerm data off tb with
    | none => none
    | some stop => some (decodeSjis (replaceNewlines (sliceBytes data off stop)))

/-- FILTER CONFIG from dump.py (integer thresholds; the fractional
thresholds 0.05, 0.55, 0.15 and 0.5 appear below as exact cross
multiplied comparisons). -/
def MIN_CHARS : Nat := 2

/-- FILTER CONFIG: maximum total length. -/
def MAX_TOTAL_LENGTH : Nat := 1024

/-- FILTER CONFIG: jp-character override count. -/
def MIN_JP_CHARS_OVERRIDE : Nat := 2

/-- FILTER CONFIG: minimum latin letters / digits. -/
def MIN_LATIN_DIGITS : Nat := 3

/-- FILTER CONFIG: minimum printable length for non-Japanese text. -/
def MIN_NON_JP_LENGTH : Nat := 5

/-- JAPANESE_RE character class. -/
def isJapaneseChar (c : Char) : Bool :=
  (0x3040 ≤ c.toNat && c.toNat ≤ 0x30FF) || (0x4E00 ≤ c.toNat && c.toNat ≤ 0x9FFF)

/-- PRINTABLE_RE character class. -/
def isPrintablePy (c : Char) : Bool :=
  let n := c.toNat
  (0x20 ≤ n && n ≤ 0x7E) || (0x3000 ≤ n && n ≤ 0x303F) ||
    (0x3040 ≤ n && n ≤ 0x309F) || (0x30A0 ≤ n && n ≤ 0x30FF) ||
    (0x4E00 ≤ n && n ≤ 0x9FFF) || c = '\n' || c = '\r' || c = '\t'

/-- LATIN_DIGIT_RE character class. -/
def isLatinDigit (c : Char) : Bool :=
  ('A' ≤ c && c ≤ 'Z') || ('a' ≤ c && c ≤ 'z') || ('0' ≤ c && c ≤ '9')

/-- Control characters counted by the classifier:
`ord(c) < 0x20 and c not in "\n\r\t"`. -/
def isControlChar (c : Char) : Bool :=
  c.toNat < 0x20 && !(c = '\n' || c = '\r' || c = '\t')

/-- Python's str whitespace set (used by `str.strip()` and by `\s`). -/
def isSpacePy (c : Char) : Bool :=
  let n := c.toNat
  (0x09 ≤ n && n ≤ 0x0D) || n = 0x20 || (0x1C ≤ n && n ≤ 0x1F) ||
    n = 0x85 || n = 0xA0 || n = 0x1680 || (0x2000 ≤ n && n ≤ 0x200A) ||
    n = 0x2028 || n = 0x2029 || n = 0x202F || n = 0x205F || n = 0x3000

/-- Python `str.strip()`. -/
def stripChars (l : List Char) : List Char :=
  ((l.dropWhile isSpacePy).reverse.dropWhile isSpacePy).reverse

/-- Word characters for the `\w` of REPLACEMENT_TOKEN_RE, restricted to
the character repertoire this embedding can produce: ASCII alphanumerics
and underscore, kana/ideographs, halfwidth katakana letters. -/
def isWordChar (c : Char) : Bool :=
  isLatinDigit c || c = '_' ||
    (0x3040 ≤ c.toNat && c.toNat ≤ 0x30FF) ||
    (0x4E00 ≤ c.toNat && c.toNat ≤ 0x9FFF) ||
    (0xFF66 ≤ c.toNat && c.toNat ≤ 0xFF9F)

/-- Match of REPLACEMENT_TOKEN_RE `<\$\w{2,}\$>` anchored at the head of
the list: `<$`, at least two word characters (greedy, and since `$` is
not a word character the greedy run cannot backtrack), then `$>`.
Returns the whole matched token and the remainder of the input. -/
def tokenMatchAt (l : List Char) : Option (List Char × List Char) :=
  match l with
  | c1 :: c2 :: rest =>
    if c1 = '<' ∧ c2 = '$' then
      let w := rest.takeWhile isWordChar
      if 2 ≤ w.length then
        match rest.dropWhile isWordChar with
        | d1 :: d2 :: rem =>
          if d1 = '$' ∧ d2 = '>' then
            some ('<' :: '$' :: (w ++ ['$', '>']), rem)
          else none
        | _ => none
      else none
    else none
  | _ => none

/-- REPLACEMENT_TOKEN_RE.findall (leftmost non-overlapping matches),
with structural fuel: a successful token match consumes at least six
characters and a failed position is skipped one character at a time, so
every step consumes at least one character and fuel equal to the input
length (as supplied by `findTokens`) never runs out. -/
def findTokensF : Nat → List Char → List (List Char)
  | 0, _ => []
  | fuel + 1, l =>
    match l with
    | [] => []
    | c :: rest =>
      match tokenMatchAt (c :: rest) with
      | some (tok, rem) => tok :: findTokensF fuel rem
      | none => findTokensF fuel rest

/-- REPLACEMENT_TOKEN_RE.findall over a whole string. -/
def findTokens (l : List Char) : List (List Char) :=
  findTokensF l.length l

/-- The `is_repeated_pattern` helper of the classifier. -/
def isRepeatedPattern (s : List Char) : Bool :=
  if s.dedup.length = 1 then true
  else [1, 2, 3, 4, 5].any fun size =>
    decide (size < s.length) && decide (s.length % size = 0) &&
      decide ((List.replicate (s.length / size) (s.take size)).flatten = s)

/-- The `is_single_japanese_char_repetition` helper. -/
def isSingleJpRepetition (s : List Char) : Bool :=
  match s with
  | [] => false
  | c :: _ => decide (s.dedup.length = 1) && isJapaneseChar c

/-- Head test `^[぀-ヿ一-鿿][A-Za-z0-9]` on the first six
characters. -/
def startsJpThenLatin (sample : List Char) : Bool :=
  match sample with
  | c1 :: c2 :: _ =>
    ((0x3040 ≤ c1.toNat && c1.toNat ≤ 0x30FF) ||
      (0x4E00 ≤ c1.toNat && c1.toNat ≤ 0x9FFF)) && isLatinDigit c2
  | _ => false

/-- Head test `^[A-Za-z0-9]{1,3}[^A-Za-z0-9]`: some run of one to three
alphanumerics followed by a non-alphanumeric character. -/
def startsShortLatin (sample : List Char) : Bool :=
  [1, 2, 3].any fun k =>
    match sample.drop k with
    | c :: _ => (sample.take k).all isLatinDigit && !isLatinDigit c
    | [] => false

/-- The `is_valid_string` classifier from dump.py.  `none` models Python
`None`; `if not text` rejects both `None` and the empty string.  The
fractional thresholds are compared exactly:
`control_frac > 0.05` is `20 * control > max 1 len`,
`printable_frac < 0.55` is `20 * printable < 11 * max 1 len`,
`repl_frac > 0.15` is `20 * joined > 3 * max 1 len`, and
`repl_token_count < len(text) * 0.5` is `2 * count < len`. -/
def isValidString (t : Option (List Char)) : Bool :=
  match t with
  | none => false
  | some text =>
    if text.isEmpty then false
    else if (stripChars text).length < MIN_CHARS then false
    else if MAX_TOTAL_LENGTH < text.length then false
    else
      let m := max 1 text.length
      let toks := findTokens text
      let replJoined := (toks.map List.length).sum
      let replCount := toks.length
      let printableCount := text.countP isPrintablePy
      let jpCount := text.countP isJapaneseChar
      let latinCount := text.countP isLatinDigit
      let controlCount := text.countP isControlChar
      if m < 20 * controlCount then false
      else if jpCount < MIN_JP_CHARS_OVERRIDE ∧ latinCount < MIN_LATIN_DIGITS then false
      else if 20 * printableCount < 11 * m then false
      else if 0 < replCount ∧ 3 * m < 20 * replJoined then false
      else if MIN_JP_CHARS_OVERRIDE ≤ jpCount ∧ 2 * replCount < text.length then true
      else if jpCount = 0 ∧ printableCount < MIN_NON_JP_LENGTH then false
      else if jpCount = 0 ∧ latinCount < 3 then false
      else if isRepeatedPattern text ∧ !isSingleJpRepetition text then false
      else if startsJpThenLatin (text.take 6) then false
      else if startsShortLatin (text.take 6) ∧ text.length < 8 then false
      else true

/-- A pointer candidate: the offset of the 4-byte pointer field and the
mapped target file offset (`address - 0x08000000`). -/
structure Candidate where
  ptrOffset : Nat
  fileOffset : Nat
deriving DecidableEq

/-- Payload of an emitted block: either a canonical entry carrying the
decoded text, or a `[DUPLICATE OF <STRING id>]` marker. -/
inductive EntryKind where
  | canonical (text : List Char)
  | duplicateOf (origId : Nat)
deriving DecidableEq

/-- One `<STRING id>` block written to the export file. -/
structure DumpEntry where
  id : Nat
  ptrOffset : Nat
  textOffset : Nat
  kind : EntryKind
deriving DecidableEq

/-- The mutable state of the extraction main loop: `string_id_counter`,
`seen_text_offsets` (association list, newest first) and the blocks
written so far, in emission order. -/
structure DumpState where
  counter : Nat
  seen : List (Nat × Nat)
  entries : List DumpEntry
deriving DecidableEq

/-- Empty state at the start of a run. -/
def dumpInit : DumpState := ⟨0, [], []⟩

/-- Dictionary lookup `seen_text_offsets[file_offset]`. -/
def lookupSeen (seen : List (Nat × Nat)) (off : Nat) : Option Nat :=
  (seen.find? (fun p => p.1 = off)).map (·.2)

/-- Processing of one candidate in `mode == "scan"`: the duplicate check
comes first and a duplicate block is written without decoding; only a
new offset is decoded and classified. -/
def scanStep (rom : List Nat) (st : DumpState) (c : Candidate) : DumpState :=
  match lookupSeen st.seen c.fileOffset with
  | some origId =>
    { counter := st.counter + 1
      seen := st.seen
      entries := st.entries ++
        [⟨st.counter, c.ptrOffset, c.fileOffset, .duplicateOf origId⟩] }
  | none =>
    let t := readStringFrom rom c.fileOffset terminatorByte
    if isValidString t then
      { counter := st.counter + 1
        seen := (c.fileOffset, st.counter) :: st.seen
        entries := st.entries ++
          [⟨st.counter, c.ptrOffset, c.fileOffset, .canonical (t.getD [])⟩] }
    else st

/-- Processing of one candidate in `mode == "tables"`: the string is
decoded and classified first, and only a candidate whose text passes
`is_valid_string` reaches the duplicate check. -/
def tablesStep (rom : List Nat) (st : DumpState) (c : Candidate) : DumpState :=
  let t := readStringFrom rom c.fileOffset terminatorByte
  if isValidString t then
    match lookupSeen st.seen c.fileOffset with
    | some origId =>
      { counter := st.counter + 1
        seen := st.seen
        entries := st.entries ++
          [⟨st.counter, c.ptrOffset, c.fileOffset, .duplicateOf origId⟩] }
    | none =>
      { counter := st.counter + 1
        seen := (c.fileOffset, st.counter) :: st.seen
        entries := st.entries ++
          [⟨st.counter, c.ptrOffset, c.fileOffset, .canonical (t.getD [])⟩] }
  else st

/-- Folding a per-candidate step over a candidate list. -/
def runDump (step : List Nat → DumpState → Candidate → DumpState)
    (rom : List Nat) (cs : List Candidate) (st : DumpState) : DumpState :=
  cs.foldl (step rom) st

/-- Little-endian 32-bit read `struct.unpack("<I", rom_data[o:o+4])[0]`. -/
def readU32 (rom : List Nat) (o : Nat) : Nat :=
  rom.getD o 0 + 256 * rom.getD (o + 1) 0 +
    65536 * rom.getD (o + 2) 0 + 16777216 * rom.getD (o + 3) 0

/-- The pointer-field offsets visited by the scan-mode loop
`for ptr_offset in range(0, rom_size - 4, 4)`: multiples of 4 strictly
below `rom_size - 4`. -/
def scannedOffsets (romSize : Nat) : List Nat :=
  (List.range ((romSize - 4 + 3) / 4)).map (· * 4)

/-- Window and bounds filter shared by both modes: the 32-bit value must
lie in `[0x08000000, 0x09000000)`, and the mapped file offset must be
inside the image and at or above OFFSET_MIN_VALID. -/
def candidateAt (rom : List Nat) (o : Nat) : Option Candidate :=
  let address := readU32 rom o
  if 0x08000000 ≤ address ∧ address < 0x09000000 then
    let fo := address - 0x08000000
    if fo < rom.length ∧ OFFSET_MIN_VALID ≤ fo then some ⟨o, fo⟩ else none
  else none

/-- The `all_pointers` list collected by scan mode. -/
def scanCandidates (rom : List Nat) : List Candidate :=
  (scannedOffsets rom.length).filterMap (candidateAt rom)

/-- Row starts of one pointer table: from `start`, stepping by
`entry_size`, while below `end` and with four bytes available
(`if len(pointer_bytes) < 4: break`). -/
def rowOffsetsAux (romLen endOff es : Nat) : Nat → Nat → List Nat
  | 0, _ => []
  | fuel + 1, cur =>
    if cur < endOff then
      if romLen < cur + 4 then []
      else cur :: rowOffsetsAux romLen endOff es fuel (cur + es)
    else []

/-- Row starts of one pointer table; the fuel `endOff - startOff` is
sufficient because the step `es` is 8 or 16, hence positive. -/
def rowOffsets (romLen startOff endOff es : Nat) : List Nat :=
  rowOffsetsAux romLen endOff es (endOff - startOff) startOff

/-- A configured pointer table region from dump.py. -/
structure TableInfo where
  tstart : Nat
  tend : Nat
  alternating : Bool
deriving DecidableEq

/-- Row stride: 8 for a `standard` table, 16 for an `alternating` one. -/
def entrySizeOf (t : TableInfo) : Nat := if t.alternating then 16 else 8

/-- The `pointer_tables` configuration of dump.py. -/
def pointerTables : List TableInfo :=
  [⟨0x10F488, 0x10FE50, false⟩, ⟨0x114D50, 0x1150D4, false⟩,
   ⟨0x11603C, 0x11625C, true⟩, ⟨0x116AFC, 0x11707C, true⟩,
   ⟨0x1179CC, 0x117B44, true⟩, ⟨0x117CCC, 0x117DA8, false⟩]

/-- Candidates produced by walking the configured tables in order. -/
def tablesCandidates (rom : List Nat) : List Candidate :=
  pointerTables.flatMap fun t =>
    (rowOffsets rom.length t.tstart t.tend (entrySizeOf t)).filterMap (candidateAt rom)

/-- The whole extraction run in scan mode. -/
def dumpScan (rom : List Nat) : DumpState :=
  runDump scanStep rom (scanCandidates rom) dumpInit

/-- The whole extraction run in tables mode. -/
def dumpTables (rom : List Nat) : DumpState :=
  runDump tablesStep rom (tablesCandidates rom) dumpInit

/-- OFFSETS from repack.py: start of the free-space region. -/
def free_space_start_offset : Nat := 0x79D6D8

/-- OFFSETS from repack.py: absolute end of the usable ROM space. -/
def ROM_END_OFFSET : Nat := 0x7FFFFF

/-- Uppercase hex digits, the non-whitespace part of the tag class. -/
def isHexUpper (c : Char) : Bool :=
  ('0' ≤ c && c ≤ '9') || ('A' ≤ c && c ≤ 'F')

/-- The character class `[0-9A-F\s]` of the hex tag pattern. -/
def isHexTagChar (c : Char) : Bool := isHexUpper c || isSpacePy c

/-- Match of the hex tag pattern `<\$\s*([0-9A-F\s]+)\s*\$>` anchored at
the head of the list.  Since `$` is not in the class, the greedy run
`\s*([0-9A-F\s]+)\s*` consumes exactly the maximal run of class
characters, which must be nonempty and followed by `$>`.  Returns the
run (so the matched part is `<$run$>`), the text captured by the inner
group (the run minus its maximal whitespace prefix, except that a run of
only whitespace leaves its last character to the `+`), and the remainder
of the input after the match.  With TAG_MAP empty the alternation
`(hex_tag|)` of `encode_string` has an empty right branch, so between tag
matches `re.split` cuts the text into single characters; both are
reflected in `encodeGo` below. -/
def tagMatchAt (l : List Char) : Option (List Char × List Char × List Char) :=
  match l with
  | c1 :: c2 :: rest =>
    if c1 = '<' ∧ c2 = '$' then
      let run := rest.takeWhile isHexTagChar
      if 1 ≤ run.length then
        match rest.dropWhile isHexTagChar with
        | d1 :: d2 :: rem =>
          if d1 = '$' ∧ d2 = '>' then
            let g2 := if (run.dropWhile isSpacePy).isEmpty then
                run.drop (run.length - 1)
              else run.dropWhile isSpacePy
            some (run, g2, rem)
          else none
        | _ => none
      else none
    else none
  | _ => none

/-- Value of one hex digit as accepted by `bytes.fromhex`. -/
def hexVal (c : Char) : Option Nat :=
  if '0' ≤ c ∧ c ≤ '9' then some (c.toNat - 48)
  else if 'A' ≤ c ∧ c ≤ 'F' then some (c.toNat - 55)
  else if 'a' ≤ c ∧ c ≤ 'f' then some (c.toNat - 87)
  else none

/-- Pairs of hex digits to bytes; `none` models the ValueError raised on
an odd digit count or a non-hex character. -/
def hexPairs : List Char → Option (List Nat)
  | [] => some []
  | [_] => none
  | c1 :: c2 :: rest =>
    match hexVal c1, hexVal c2, hexPairs rest with
    | some a, some b, some l => some ((16 * a + b) :: l)
    | _, _, _ => none

/-- The tag branch of `encode_string`:
`bytes.fromhex(part[2:-2].strip().replace(" ", ""))`.  `none` models an
uncaught ValueError (the surrounding `try` only wraps the shift_jis
branch).  A whitespace character other than a plain space surviving the
`.replace(" ", "")` is treated as a hex error, as CPython < 3.11 does. -/
def fromHexPy (run : List Char) : Option (List Nat) :=
  hexPairs ((stripChars run).filter (fun c => !(c = ' ')))

/-- Encoding of one character under `encode("shift_jis",
errors="replace")` in the modelled codec: ASCII, halfwidth katakana and
the modelled double-byte block invert `decodeSjis`; every other
character becomes the replacement byte b"?" (0x3F).  The `replace`
handler makes this total, so the call never raises. -/
def sjisEncodeChar (c : Char) : List Nat :=
  let n := c.toNat
  if n < 0x80 then [n]
  else if 0xFF61 ≤ n ∧ n ≤ 0xFF9F then [0xA1 + (n - 0xFF61)]
  else if 0x4E00 ≤ n ∧ n < 0x4E00 + 42 * 188 then
    let idx := n - 0x4E00
    let li := idx / 188
    let ti := idx % 188
    [if li < 31 then 0x81 + li else 0xE0 + (li - 31),
     if ti < 63 then 0x40 + ti else 0x80 + (ti - 63)]
  else [0x3F]

/-- The `try: part.encode("shift_jis", errors="replace") except: WARNING`
body of `encode_string` applied to one non-tag part.  Returns the bytes
and the warnings printed; because the `replace` error handler always
substitutes a byte instead of raising, the except branch is dead and the
warning list is always empty. -/
def tryEncodePart (part : List Char) : List Nat × List (List Char) :=
  (part.flatMap sjisEncodeChar, [])

/-- The part loop of `encode_string` over the `re.split` output: at each
position either the hex tag pattern matches — contributing the tag's
bytes and then, because `re.split` also returns the text of the inner
capture group as a part, the shift_jis encoding of that captured hex
text — or the single character at that position is shift_jis encoded
(the empty alternation splits non-tag text into single characters; empty
and None parts are skipped by `if not part`).  Accumulates (bytes,
warnings); `none` is an uncaught exception from `bytes.fromhex`. -/
def encodeGoF : Nat → List Char → Option (List Nat × List (List Char))
  | 0, _ => some ([], [])
  | fuel + 1, l =>
    match l with
    | [] => some ([], [])
    | c :: rest =>
      match tagMatchAt (c :: rest) with
      | some (run, g2, rem) =>
        match fromHexPy run with
        | none => none
        | some bs =>
          let pg := tryEncodePart g2
          match encodeGoF fuel rem with
          | none => none
          | some (tl, w2) => some (bs ++ pg.1 ++ tl, pg.2 ++ w2)
      | none =>
        let pc := tryEncodePart [c]
        match encodeGoF fuel rest with
        | none => none
        | some (tl, w2) => some (pc.1 ++ tl, pc.2 ++ w2)

/-- The part loop over the whole processed text.  Structural fuel equal
to the text length never runs out: a successful tag match consumes at
least five characters and every other step consumes exactly one. -/
def encodeGo (l : List Char) : Option (List Nat × List (List Char)) :=
  encodeGoF l.length l

/-- The `text_string.replace("\n", chr(newline_char[0]))` step: both
sides are U+000A, so the substitution is the identity; kept literally. -/
def processedText (text : List Char) : List Char :=
  text.map fun c => if c = '\n' then Char.ofNat newlineByte else c

/-- `encode_string` from repack.py: encode the processed text and append
the terminator byte.  Also returns the WARNING lines printed (always
none, see `tryEncodePart`); `none` models the script crashing on an
invalid hex tag. -/
def encodeStringFull (text : List Char) : Option (List Nat × List (List Char)) :=
  (encodeGo (processedText text)).map fun p => (p.1 ++ [terminatorByte], p.2)

/-- The byte result of `encode_string`. -/
def encodeString (text : List Char) : Option (List Nat) :=
  (encodeStringFull text).map (·.1)

/-- The warnings surfaced by `encode_string` (the prints of its except
branch). -/
def encodeWarnings (text : List Char) : List (List Char) :=
  ((encodeStringFull text).map (·.2)).getD []

/-- One parsed entry of the translated text file: either a canonical
block carrying its original text offset and (possibly edited) text, or a
`[DUPLICATE OF <STRING original_id>]` block. -/
inductive RepackEntry where
  | canon (id ptrOffset textOffset : Nat) (text : List Char)
  | dup (id ptrOffset origId : Nat)
deriving DecidableEq

/-- State of the first repack pass: the (mutated) ROM buffer, the free
space cursor `current_free_space_offset` and the dictionary
`repointed_locations` (newest binding first). -/
structure P1State where
  rom : List Nat
  cursor : Nat
  repointed : List (Nat × Nat)
deriving DecidableEq

/-- Fatal terminations of the repack script during the first pass:
`exit()` on free-space exhaustion, or an uncaught exception from
`bytes.fromhex` on a malformed hex tag. -/
inductive P1Err where
  | outOfSpace
  | encodeFailure
deriving DecidableEq

/-- Python slice assignment `rom[off : off + len(nb)] = nb` for a
step-1 slice: replaces the clamped range and, when `off` is at or past
the end, appends (exactly as a bytearray does). -/
def writeSlice (rom : List Nat) (off : Nat) (nb : List Nat) : List Nat :=
  rom.take off ++ nb ++ rom.drop (off + nb.length)

/-- The padding loop
`for i in range(new_length, original_length): rom[offset + i] = 0`.
`List.set` ignores an out-of-range index, but every index written here
is at most the position where the terminator was found, hence inside the
buffer. -/
def padTerm (rom : List Nat) (off lo hi : Nat) : List Nat :=
  (List.range (hi - lo)).foldl (fun r k => r.set (off + lo + k) terminatorByte) rom

/-- One entry of the first pass of repack.py.  Duplicates are skipped.
For a canonical entry the original slot length is computed with
`rom_data.find(terminator, original_offset)` on the CURRENT buffer — the
same bytearray already mutated by earlier entries — then the new text
is encoded; if it fits it is written in place and the remainder of the
slot padded with terminators, otherwise it goes to the free-space cursor
unless that would pass ROM_END_OFFSET, which is the fatal abort. -/
def p1Step (romEnd : Nat) (st : P1State) (e : RepackEntry) : Except P1Err P1State :=
  match e with
  | .dup _ _ _ => .ok st
  | .canon id _ off text =>
    let origLen := match findTerm st.rom off terminatorByte with
      | some stop => stop - off + 1
      | none => 0
    match encodeString text with
    | none => .error .encodeFailure
    | some nb =>
      if nb.length ≤ origLen then
        .ok { rom := padTerm (writeSlice st.rom off nb) off nb.length origLen
              cursor := st.cursor
              repointed := (id, off) :: st.repointed }
      else if romEnd < st.cursor + nb.length then .error .outOfSpace
      else
        .ok { rom := writeSlice st.rom st.cursor nb
              cursor := st.cursor + nb.length
              repointed := (id, st.cursor) :: st.repointed }

/-- The first pass over the whole entry list; an error aborts the fold
exactly as `exit()` / an uncaught exception aborts the script. -/
def runPass1 (romEnd : Nat) (st : P1State) : List RepackEntry → Except P1Err P1State
  | [] => .ok st
  | e :: rest =>
    match p1Step romEnd st e with
    | .ok st2 => runPass1 romEnd st2 rest
    | .error err => .error err

/-- Little-endian `struct.pack("<I", v)`. -/
def le32 (v : Nat) : List Nat :=
  [v % 256, v / 256 % 256, v / 65536 % 256, v / 16777216 % 256]

/-- One entry of the second pass: resolve the relocation target (its own
id for a canonical entry, `original_id` for a duplicate); if the target
is in `repointed_locations`, overwrite the 4 pointer bytes with the
re-based little-endian address, otherwise print a warning and leave the
pointer untouched. -/
def p2Step (repointed : List (Nat × Nat)) (rom : List Nat) (e : RepackEntry) : List Nat :=
  let pOff := match e with | .canon _ p _ _ => p | .dup _ p _ => p
  let targetId := match e with | .canon i _ _ _ => i | .dup _ _ o => o
  match lookupSeen repointed targetId with
  | some loc => writeSlice rom pOff (le32 (0x08000000 + loc))
  | none => rom

/-- The second pass over the whole entry list. -/
def runPass2 (repointed : List (Nat × Nat)) (entries : List RepackEntry)
    (rom : List Nat) : List Nat :=
  entries.foldl (p2Step repointed) rom

/-- The repack main flow after parsing, with the free-space window as
parameters: first pass, then pointer patching, then the final buffer
that gets written to the output file.  `none` means the script died in
the first pass — by `exit()` or by an uncaught exception — before the
output file was ever opened, so no image is persisted. -/
def repackRun (freeStart romEnd : Nat) (entries : List RepackEntry)
    (rom : List Nat) : Option (List Nat) :=
  match runPass1 romEnd ⟨rom, freeStart, []⟩ entries with
  | .ok st => some (runPass2 st.repointed entries st.rom)
  | .error _ => none

/-- The repack main flow with the configured constants. -/
def repackMain (entries : List RepackEntry) (rom : List Nat) : Option (List Nat) :=
  repackRun free_space_start_offset ROM_END_OFFSET entries rom

/-- Original slot length as the first pass computes it for the state it
is in when it reaches a given entry: `none` if the run aborted earlier
or the entry is a duplicate. -/
def p1SlotLength (romEnd : Nat) (pristine : List Nat) (freeStart : Nat)
    (entries : List RepackEntry) (k : Nat) : Option Nat :=
  match runPass1 romEnd ⟨pristine, freeStart, []⟩ (entries.take k) with
  | .error _ => none
  | .ok st =>
    match entries.drop k with
    | .canon _ _ off _ :: _ =>
      some (match findTerm st.rom off terminatorByte with
            | some stop => stop - off + 1
            | none => 0)
    | _ => none

/-- Slot length measured on a fixed buffer (the pristine image): the
distance to the next terminator byte, inclusive, 0 if there is none. -/
def slotLengthAt (buf : List Nat) (off : Nat) : Nat :=
  match findTerm buf off terminatorByte with
  | some stop => stop - off + 1
  | none => 0

/-- True when the hex tag pattern of `encode_string` matches somewhere
in the text, i.e. when `re.split` would cut out at least one `<$...$>`
tag.  Text for which this is false is passed to the shift_jis branch
character by character. -/
def containsTag : List Char → Bool
  | [] => false
  | c :: rest => (tagMatchAt (c :: rest)).isSome || containsTag rest

/-- Invariant of the extraction state: ids of the emitted blocks are
exactly 0, 1, 2, ... in emission order, duplicate references are
strictly smaller than the referencing id, and every id stored in the
seen-offset dictionary is below the counter. -/
def idsOk (st : DumpState) : Prop :=
  st.entries.map DumpEntry.id = List.range st.counter ∧
  (∀ e ∈ st.entries, ∀ oid, e.kind = .duplicateOf oid → oid < e.id) ∧
  (∀ p ∈ st.seen, p.2 < st.counter)

/-- Invariant of the extraction state relative to the image: every
offset registered in the seen-offset dictionary and every emitted
entry's text offset decodes to a string accepted by the classifier. -/
def seenAllValid (rom : List Nat) (st : DumpState) : Prop :=
  (∀ p ∈ st.seen, isValidString (readStringFrom rom p.1 terminatorByte) = true) ∧
  (∀ e ∈ st.entries, isValidString (readStringFrom rom e.textOffset terminatorByte) = true)

/-- A successful dictionary lookup comes from a stored binding. -/
theorem lookupSeen_mem {seen : List (Nat × Nat)} {off oid : Nat}
    (h : lookupSeen seen off = some oid) : (off, oid) ∈ seen := by
  unfold lookupSeen at h
  cases hf : seen.find? (fun p => p.1 = off) with
  | none => rw [hf] at h; simp at h
  | some p =>
    rw [hf] at h
    simp only [Option.map_some', Option.some.injEq] at h
    have hm := List.mem_of_find?_eq_some hf
    have hp := List.find?_some hf
    simp only [decide_eq_true_eq] at hp
    cases p with
    | mk a b => simp only at hp h; subst hp; subst h; exact hm

/-- Any property preserved by the per-candidate step is preserved by the
whole run. -/
theorem runDump_preserve (step : List Nat → DumpState → Candidate → DumpState)
    (rom : List Nat) (P : DumpState → Prop)
    (hstep : ∀ st c, P st → P (step rom st c)) :
    ∀ (cs : List Candidate) (st : DumpState), P st → P (runDump step rom cs st) := by
  intro cs
  induction cs with
  | nil => exact fun st h => h
  | cons c cs ih => exact fun st h => ih (step rom st c) (hstep st c h)

/-- The scan-mode step preserves the id invariant. -/
theorem scanStep_idsOk (rom : List Nat) (st : DumpState) (c : Candidate)
    (h : idsOk st) : idsOk (scanStep rom st c) := by
  obtain ⟨h1, h2, h3⟩ := h
  unfold scanStep
  cases hl : lookupSeen st.seen c.fileOffset with
  | some orig =>
    refine ⟨?_, ?_, ?_⟩
    · simp only [List.map_append, h1, List.map_cons, List.map_nil, List.range_succ]
    · intro e he oid hk
      rcases List.mem_append.mp he with he | he
      · exact h2 e he oid hk
      · simp only [List.mem_singleton] at he
        subst he
        simp only [EntryKind.duplicateOf.injEq] at hk
        subst hk
        exact h3 _ (lookupSeen_mem hl)
    · exact fun p hp => Nat.lt_succ_of_lt (h3 p hp)
  | none =>
    dsimp only
    split_ifs with hv
    · refine ⟨?_, ?_, ?_⟩
      · simp only [List.map_append, h1, List.map_cons, List.map_nil, List.range_succ]
      · intro e he oid hk
        rcases List.mem_append.mp he with he | he
        · exact h2 e he oid hk
        · simp only [List.mem_singleton] at he
          subst he
          simp at hk
      · intro p hp
        rcases List.mem_cons.mp hp with hp | hp
        · subst hp; exact Nat.lt_succ_self _
        · exact Nat.lt_succ_of_lt (h3 p hp)
    · exact ⟨h1, h2, h3⟩

/-- The tables-mode step preserves the id invariant. -/
theorem tablesStep_idsOk (rom : List Nat) (st : DumpState) (c : Candidate)
    (h : idsOk st) : idsOk (tablesStep rom st c) := by
  obtain ⟨h1, h2, h3⟩ := h
  unfold tablesStep
  dsimp only
  split_ifs with hv
  · cases hl : lookupSeen st.seen c.fileOffset with
    | some orig =>
      refine ⟨?_, ?_, ?_⟩
      · simp only [List.map_append, h1, List.map_cons, List.map_nil, List.range_succ]
      · intro e he oid hk
        rcases List.mem_append.mp he with he | he
        · exact h2 e he oid hk
        · simp only [List.mem_singleton] at he
          subst he
          simp only [EntryKind.duplicateOf.injEq] at hk
          subst hk
          exact h3 _ (lookupSeen_mem hl)
      · exact fun p hp => Nat.lt_succ_of_lt (h3 p hp)
    | none =>
      refine ⟨?_, ?_, ?_⟩
      · simp only [List.map_append, h1, List.map_cons, List.map_nil, List.range_succ]
      · intro e he oid hk
        rcases List.mem_append.mp he with he | he
        · exact h2 e he oid hk
        · simp only [List.mem_singleton] at he
          subst he
          simp at hk
      · intro p hp
        rcases List.mem_cons.mp hp with hp | hp
        · subst hp; exact Nat.lt_succ_self _
        · exact Nat.lt_succ_of_lt (h3 p hp)
  · exact ⟨h1, h2, h3⟩

/-- The scan-mode step preserves validity of all registered offsets. -/
theorem scanStep_seenValid (rom : List Nat) (st : DumpState) (c : Candidate)
    (h : seenAllValid rom st) : seenAllValid rom (scanStep rom st c) := by
  obtain ⟨h1, h2⟩ := h
  unfold scanStep
  cases hl : lookupSeen st.seen c.fileOffset with
  | some orig =>
    refine ⟨h1, ?_⟩
    intro e he
    rcases List.mem_append.mp he with he | he
    · exact h2 e he
    · simp only [List.mem_singleton] at he
      subst he
      exact h1 _ (lookupSeen_mem hl)
  | none =>
    dsimp only
    split_ifs with hv
    · refine ⟨?_, ?_⟩
      · intro p hp
        rcases List.mem_cons.mp hp with hp | hp
        · subst hp; exact hv
        · exact h1 p hp
      · intro e he
        rcases List.mem_append.mp he with he | he
        · exact h2 e he
        · simp only [List.mem_singleton] at he
          subst he
          exact hv
    · exact ⟨h1, h2⟩

/-- The tables-mode step preserves validity of all registered offsets. -/
theorem tablesStep_seenValid (rom : List Nat) (st : DumpState) (c : Candidate)
    (h : seenAllValid rom st) : seenAllValid rom (tablesStep rom st c) := by
  obtain ⟨h1, h2⟩ := h
  unfold tablesStep
  dsimp only
  split_ifs with hv
  · cases hl : lookupSeen st.seen c.fileOffset with
    | some orig =>
      refine ⟨h1, ?_⟩
      intro e he
      rcases List.mem_append.mp he with he | he
      · exact h2 e he
      · simp only [List.mem_singleton] at he
        subst he
        exact hv
    | none =>
      refine ⟨?_, ?_⟩
      · intro p hp
        rcases List.mem_cons.mp hp with hp | hp
        · subst hp; exact hv
        · exact h1 p hp
      · intro e he
        rcases List.mem_append.mp he with he | he
        · exact h2 e he
        · simp only [List.mem_singleton] at he
          subst he
          exact hv
  · exact ⟨h1, h2⟩

/-- C4: across one extraction run, in either strategy and for any
candidate sequence, the ids over canonical and duplicate entries
combined are the consecutive sequence 0, 1, 2, ... in emission order
with no gaps, and every duplicate entry's referenced canonical id is
strictly less than the duplicate's own id. -/
theorem c4_ids_consecutive (rom : List Nat) (cs : List Candidate) :
    ((runDump scanStep rom cs dumpInit).entries.map DumpEntry.id =
        List.range (runDump scanStep rom cs dumpInit).entries.length ∧
      ∀ e ∈ (runDump scanStep rom cs dumpInit).entries, ∀ oid,
        e.kind = .duplicateOf oid → oid < e.id) ∧
    ((runDump tablesStep rom cs dumpInit).entries.map DumpEntry.id =
        List.range (runDump tablesStep rom cs dumpInit).entries.length ∧
      ∀ e ∈ (runDump tablesStep rom cs dumpInit).entries, ∀ oid,
        e.kind = .duplicateOf oid → oid < e.id) := by
  have hinit : idsOk dumpInit :=
    ⟨rfl, fun e he => absurd he (List.not_mem_nil e),
      fun p hp => absurd hp (List.not_mem_nil p)⟩
  have hs := runDump_preserve scanStep rom idsOk (scanStep_idsOk rom) cs dumpInit hinit
  have ht := runDump_preserve tablesStep rom idsOk (tablesStep_idsOk rom) cs dumpInit hinit
  constructor
  · obtain ⟨h1, h2, -⟩ := hs
    have hlen : (runDump scanStep rom cs dumpInit).entries.length =
        (runDump scanStep rom cs dumpInit).counter := by
      have := congrArg List.length h1
      simpa using this
    exact ⟨by rw [hlen]; exact h1, h2⟩
  · obtain ⟨h1, h2, -⟩ := ht
    have hlen : (runDump tablesStep rom cs dumpInit).entries.length =
        (runDump tablesStep rom cs dumpInit).counter := by
      have := congrArg List.length h1
      simpa using this
    exact ⟨by rw [hlen]; exact h1, h2⟩

/-- C2 counterexample: in tables mode a candidate whose target offset is
in the seen-offset index is NOT emitted unconditionally — the code
re-decodes and re-classifies first, so at a state whose indexed offset
holds text the classifier rejects (here: an empty string), no duplicate
entry is emitted at all. -/
theorem c2_counterexample :
    ¬ ∀ (rom : List Nat) (st : DumpState) (c : Candidate) (origId : Nat),
        lookupSeen st.seen c.fileOffset = some origId →
        (tablesStep rom st c).entries = st.entries ++
          [⟨st.counter, c.ptrOffset, c.fileOffset, .duplicateOf origId⟩] := by
  intro hclaim
  have h := hclaim [0] ⟨1, [(0, 0)], []⟩ ⟨4, 0⟩ 0 (by decide)
  exact absurd h (by decide)

/-- C2 (amended): a candidate whose target offset is already indexed is
emitted as a duplicate of the canonical id unconditionally and without
decoding in SCAN mode; in TABLES mode the text at the offset is
re-decoded and re-classified first and the duplicate is emitted only if
classification passes — which it always does for a state produced by a
tables-mode run over the same image, since every indexed offset then
holds classifier-accepted text. -/
theorem c2_amended (rom : List Nat) (st : DumpState) (c : Candidate) (origId : Nat)
    (h : lookupSeen st.seen c.fileOffset = some origId) :
    ((scanStep rom st c).entries = st.entries ++
        [⟨st.counter, c.ptrOffset, c.fileOffset, .duplicateOf origId⟩] ∧
      (scanStep rom st c).seen = st.seen) ∧
    (isValidString (readStringFrom rom c.fileOffset terminatorByte) = true →
      (tablesStep rom st c).entries = st.entries ++
        [⟨st.counter, c.ptrOffset, c.fileOffset, .duplicateOf origId⟩]) ∧
    (∀ cs : List Candidate, st = runDump tablesStep rom cs dumpInit →
      isValidString (readStringFrom rom c.fileOffset terminatorByte) = true) := by
  refine ⟨?_, ?_, ?_⟩
  · constructor <;> simp [scanStep, h]
  · intro hv
    simp [tablesStep, hv, h]
  · intro cs hst
    have hinit : seenAllValid rom dumpInit :=
      ⟨fun p hp => absurd hp (List.not_mem_nil p),
       fun e he => absurd he (List.not_mem_nil e)⟩
    have hsv := runDump_preserve tablesStep rom (seenAllValid rom)
      (tablesStep_seenValid rom) cs dumpInit hinit
    rw [← hst] at hsv
    exact hsv.1 _ (lookupSeen_mem h)

/-- Witness for C2 (amended): a small image holding the valid string
"Hello" at offset 0; after a tables-mode run registered it, both steps
emit the duplicate for a second pointer to offset 0. -/
theorem c2_amended_witness :
    ((scanStep [72, 101, 108, 108, 111, 0]
        (runDump tablesStep [72, 101, 108, 108, 111, 0] [⟨0, 0⟩] dumpInit)
        ⟨8, 0⟩).entries =
      (runDump tablesStep [72, 101, 108, 108, 111, 0] [⟨0, 0⟩] dumpInit).entries ++
        [⟨(runDump tablesStep [72, 101, 108, 108, 111, 0] [⟨0, 0⟩] dumpInit).counter,
          8, 0, .duplicateOf 0⟩]) ∧
    isValidString (readStringFrom [72, 101, 108, 108, 111, 0] 0 terminatorByte) = true :=
  ⟨(c2_amended [72, 101, 108, 108, 111, 0]
      (runDump tablesStep [72, 101, 108, 108, 111, 0] [⟨0, 0⟩] dumpInit)
      ⟨8, 0⟩ 0 (by decide)).1.1,
   (c2_amended [72, 101, 108, 108, 111, 0]
      (runDump tablesStep [72, 101, 108, 108, 111, 0] [⟨0, 0⟩] dumpInit)
      ⟨8, 0⟩ 0 (by decide)).2.2 [⟨0, 0⟩] rfl⟩

/-- C7: in scan mode, when a first-encountered candidate's text is
rejected by the classifier the state is returned unchanged — no entry,
no id consumed, offset not indexed — and, had the text at that offset
been accepted, the same step would have registered it as canonical; so
a later candidate for the same offset is classified afresh against the
unchanged state. -/
theorem c7_invalid_candidate_dropped (rom : List Nat) (st : DumpState)
    (c : Candidate) (h : lookupSeen st.seen c.fileOffset = none) :
    (isValidString (readStringFrom rom c.fileOffset terminatorByte) = false →
      scanStep rom st c = st) ∧
    (isValidString (readStringFrom rom c.fileOffset terminatorByte) = true →
      scanStep rom st c =
        { counter := st.counter + 1
          seen := (c.fileOffset, st.counter) :: st.seen
          entries := st.entries ++
            [⟨st.counter, c.ptrOffset, c.fileOffset,
              .canonical ((readStringFrom rom c.fileOffset terminatorByte).getD [])⟩] }) := by
  constructor <;> intro hv <;> simp [scanStep, h, hv]

/-- Witness for C7: a one-byte image with no terminator (candidate
silently dropped, state unchanged) and an image holding "Hello"
(candidate registered as canonical). -/
theorem c7_witness :
    scanStep [65] dumpInit ⟨0, 0⟩ = dumpInit ∧
    scanStep [72, 101, 108, 108, 111, 0] dumpInit ⟨0, 0⟩ =
      ⟨1, [(0, 0)], [⟨0, 0, 0, .canonical "Hello".toList⟩]⟩ := by
  constructor
  · exact (c7_invalid_candidate_dropped [65] dumpInit ⟨0, 0⟩ (by decide)).1 (by decide)
  · have h := (c7_invalid_candidate_dropped [72, 101, 108, 108, 111, 0] dumpInit
      ⟨0, 0⟩ (by decide)).2 (by decide)
    rw [h]; decide

/-- C10: decoding returns absent (never raising) when the start offset
is at or beyond the end of the image or no terminator byte occurs at or
after it, and in a full run of either mode such a candidate produces no
entry at all. -/
theorem c10_absent_decode (rom : List Nat) (off : Nat)
    (h : off ≥ rom.length ∨
      ∀ j, off ≤ j → j < rom.length → rom.getD j 0 ≠ terminatorByte) :
    readStringFrom rom off terminatorByte = none ∧
    (∀ cs : List Candidate, ∀ e ∈ (runDump scanStep rom cs dumpInit).entries,
      e.textOffset ≠ off) ∧
    (∀ cs : List Candidate, ∀ e ∈ (runDump tablesStep rom cs dumpInit).entries,
      e.textOffset ≠ off) := by
  have hnone : readStringFrom rom off terminatorByte = none := by
    rcases h with h | h
    · simp [readStringFrom, h]
    · unfold readStringFrom
      split_ifs with hoff
      · rfl
      · have hft : findTerm rom off terminatorByte = none := by
          unfold findTerm
          cases hidx : (rom.drop off).findIdx? (· = terminatorByte) with
          | none => rfl
          | some k =>
            exfalso
            rw [List.findIdx?_eq_some_iff_getElem] at hidx
            obtain ⟨hklt, hp, -⟩ := hidx
            have hget : (rom.drop off)[k] = terminatorByte := of_decide_eq_true hp
            have hlen : off + k < rom.length := by
              have := hklt
              simp [List.length_drop] at this
              omega
            have hgd : rom.getD (off + k) 0 = terminatorByte := by
              rw [List.getD_eq_getElem?_getD]
              rw [List.getElem?_eq_getElem hlen]
              simp only [Option.getD_some]
              have h2 : (rom.drop off)[k] = rom[off + k] := by
                rw [List.getElem_drop]
              rw [← h2]
              exact hget
            exact h (off + k) (Nat.le_add_right off k) hlen hgd
        rw [hft]
  refine ⟨hnone, ?_, ?_⟩
  all_goals
    intro cs e he heq
    first
    | (have hsv := runDump_preserve scanStep rom (seenAllValid rom)
        (scanStep_seenValid rom) cs dumpInit
        ⟨fun p hp => absurd hp (List.not_mem_nil p),
         fun e2 he2 => absurd he2 (List.not_mem_nil e2)⟩
       have hval := hsv.2 e he
       rw [heq, hnone] at hval
       simp [isValidString] at hval)
    | (have hsv := runDump_preserve tablesStep rom (seenAllValid rom)
        (tablesStep_seenValid rom) cs dumpInit
        ⟨fun p hp => absurd hp (List.not_mem_nil p),
         fun e2 he2 => absurd he2 (List.not_mem_nil e2)⟩
       have hval := hsv.2 e he
       rw [heq, hnone] at hval
       simp [isValidString] at hval)

/-- Witness for C10: the empty image at offset 0. -/
theorem c10_witness :
    readStringFrom [] 0 terminatorByte = none ∧
    (∀ e ∈ (runDump scanStep [] [⟨0, 0⟩] dumpInit).entries, e.textOffset ≠ 0) :=
  ⟨(c10_absent_decode [] 0 (Or.inl (by decide))).1,
   (c10_absent_decode [] 0 (Or.inl (by decide))).2.1 [⟨0, 0⟩]⟩

/-- C6 counterexample: the scan loop `range(0, rom_size - 4, 4)` has an
exclusive stop, so for an 8-byte image the aligned offset 4 — which
satisfies 4 + 4 <= 8 and is therefore readable — is never visited. -/
theorem c6_counterexample :
    ¬ ∀ (romSize o : Nat), 4 ∣ o → o + 4 ≤ romSize → o ∈ scannedOffsets romSize := by
  intro h
  have := h 8 4 (by decide) (by decide)
  exact absurd this (by decide)

/-- C6 (amended): scan mode reads a little-endian 32-bit candidate at
exactly the 4-byte-aligned offsets o with o + 4 STRICTLY below the image
size; the final aligned word (o + 4 = size) is skipped by the exclusive
bound of `range(0, rom_size - 4, 4)`. -/
theorem c6_amended (romSize o : Nat) :
    o ∈ scannedOffsets romSize ↔ 4 ∣ o ∧ o + 4 < romSize := by
  unfold scannedOffsets
  simp only [List.mem_map, List.mem_range]
  constructor
  · rintro ⟨k, hk, rfl⟩
    exact ⟨⟨k, Nat.mul_comm k 4⟩, by omega⟩
  · rintro ⟨⟨k, rfl⟩, hlt⟩
    exact ⟨k, by omega, by omega⟩

/-- Witness for C6 (amended): offset 4 is scanned in a 12-byte image. -/
theorem c6_witness : 4 ∈ scannedOffsets 12 :=
  (c6_amended 12 4).mpr (by decide)

/-- findIdx? characterized through getElem?. -/
theorem findIdx?_some_iff_getElem? {α : Type} {xs : List α} {p : α → Bool} {i : Nat} :
    xs.findIdx? p = some i ↔
      (∃ a, xs[i]? = some a ∧ p a) ∧
        ∀ j, j < i → ∀ a, xs[j]? = some a → ¬ p a := by
  rw [List.findIdx?_eq_some_iff_getElem]
  constructor
  · rintro ⟨h, hp, hprev⟩
    refine ⟨⟨xs[i], by simp [List.getElem?_eq_getElem h], hp⟩, ?_⟩
    intro j hj a ha hpa
    have hjlen : j < xs.length := Nat.lt_trans hj h
    rw [List.getElem?_eq_getElem hjlen] at ha
    simp only [Option.some.injEq] at ha
    exact hprev j hj (ha ▸ hpa)
  · rintro ⟨⟨a, ha, hpa⟩, hprev⟩
    have hi : i < xs.length := by
      by_contra hc
      rw [List.getElem?_eq_none (by omega)] at ha
      simp at ha
    have hxa : xs[i] = a := by
      rw [List.getElem?_eq_getElem hi] at ha
      simpa using ha
    refine ⟨hi, hxa ▸ hpa, ?_⟩
    intro j hj hpj
    exact hprev j hj xs[j]
      (by simp [List.getElem?_eq_getElem (Nat.lt_trans hj hi)]) hpj

/-- The `bytes.find(tb, off)` helper characterized: it returns `stop`
exactly when `stop` is the first position at or after `off` holding the
byte. -/
theorem findTerm_some_iff {data : List Nat} {off stop tb : Nat} :
    findTerm data off tb = some stop ↔
      off ≤ stop ∧ data[stop]? = some tb ∧
        ∀ j, off ≤ j → j < stop → data[j]? ≠ some tb := by
  unfold findTerm
  constructor
  · intro h
    cases hidx : (data.drop off).findIdx? (· = tb) with
    | none => rw [hidx] at h; exact absurd h (by simp)
    | some k =>
      rw [hidx] at h
      simp only [Option.some.injEq] at h
      subst h
      rw [findIdx?_some_iff_getElem?] at hidx
      obtain ⟨⟨a, ha, hpa⟩, hprev⟩ := hidx
      rw [List.getElem?_drop] at ha
      simp only [decide_eq_true_eq] at hpa
      subst hpa
      refine ⟨Nat.le_add_right _ _, ha, ?_⟩
      intro j hj1 hj2 heq
      apply hprev (j - off) (by omega) a _ (by simp)
      rw [List.getElem?_drop, show off + (j - off) = j by omega]
      exact heq
  · rintro ⟨h1, h2, h3⟩
    have hidx : (data.drop off).findIdx? (· = tb) = some (stop - off) := by
      rw [findIdx?_some_iff_getElem?]
      refine ⟨⟨tb, ?_, by simp⟩, ?_⟩
      · rw [List.getElem?_drop, show off + (stop - off) = stop by omega]
        exact h2
      · intro j hj a ha hpa
        simp only [decide_eq_true_eq] at hpa
        subst hpa
        rw [List.getElem?_drop] at ha
        exact h3 (off + j) (by omega) (by omega) ha
    rw [hidx]
    dsimp only
    rw [show off + (stop - off) = stop by omega]

/-- Two buffers that agree on the byte range from the start offset up to
the first terminator of the second buffer find the same terminator. -/
theorem findTerm_congr {rom1 rom2 : List Nat} {off stop : Nat} (tb : Nat)
    (h2 : findTerm rom2 off tb = some stop)
    (hag : ∀ j, off ≤ j → j ≤ stop → rom1[j]? = rom2[j]?) :
    findTerm rom1 off tb = some stop := by
  rw [findTerm_some_iff] at h2 ⊢
  obtain ⟨ha, hb, hc⟩ := h2
  refine ⟨ha, ?_, ?_⟩
  · rw [hag stop ha (Nat.le_refl stop)]
    exact hb
  · intro j hj1 hj2
    rw [hag j hj1 (Nat.le_of_lt hj2)]
    exact hc j hj1 hj2

/-- A successful allocation step keeps the cursor at or below the
configured ceiling. -/
theorem p1Step_cursor_le {romEnd : Nat} {st st2 : P1State} {e : RepackEntry}
    (h : p1Step romEnd st e = .ok st2) (hc : st.cursor ≤ romEnd) :
    st2.cursor ≤ romEnd := by
  unfold p1Step at h
  cases e with
  | dup i p o =>
    simp only [Except.ok.injEq] at h
    subst h
    exact hc
  | canon id p off text =>
    dsimp only at h
    cases he : encodeString text with
    | none => rw [he] at h; simp at h
    | some nb =>
      rw [he] at h
      dsimp only at h
      split_ifs at h with hfit hover
      · simp only [Except.ok.injEq] at h
        subst h
        exact hc
      · simp only [Except.ok.injEq] at h
        subst h
        dsimp only
        omega

/-- A successful first pass keeps the cursor at or below the ceiling. -/
theorem runPass1_cursor_le (romEnd : Nat) :
    ∀ (es : List RepackEntry) (st st2 : P1State),
      runPass1 romEnd st es = .ok st2 → st.cursor ≤ romEnd → st2.cursor ≤ romEnd := by
  intro es
  induction es with
  | nil =>
    intro st st2 h hc
    unfold runPass1 at h
    simp only [Except.ok.injEq] at h
    subst h
    exact hc
  | cons e es ih =>
    intro st st2 h hc
    unfold runPass1 at h
    cases hs : p1Step romEnd st e with
    | ok mid =>
      rw [hs] at h
      exact ih mid st2 h (p1Step_cursor_le hs hc)
    | error err => rw [hs] at h; simp at h

/-- C3: whenever placing a relocated string would advance the cursor
past the free-space ceiling, the step aborts as a fatal error before the
bytes are written (the error carries no state, so neither the buffer nor
the cursor is touched); an aborted first pass yields no output image at
all; and consequently the cursor of every successfully reached state
never exceeds the ceiling. -/
theorem c3_free_space_abort (freeStart romEnd : Nat) (entries : List RepackEntry)
    (rom : List Nat) (hfs : freeStart ≤ romEnd) :
    (∀ k st, runPass1 romEnd ⟨rom, freeStart, []⟩ (entries.take k) = .ok st →
      st.cursor ≤ romEnd) ∧
    (∀ (st : P1State) (id p off : Nat) (text : List Char) (nb : List Nat),
      encodeString text = some nb →
      ¬ nb.length ≤ slotLengthAt st.rom off →
      romEnd < st.cursor + nb.length →
      p1Step romEnd st (.canon id p off text) = .error .outOfSpace) ∧
    (∀ err, runPass1 romEnd ⟨rom, freeStart, []⟩ entries = .error err →
      repackRun freeStart romEnd entries rom = none) := by
  refine ⟨?_, ?_, ?_⟩
  · intro k st h
    exact runPass1_cursor_le romEnd (entries.take k) ⟨rom, freeStart, []⟩ st h hfs
  · intro st id p off text nb he hnf hov
    unfold slotLengthAt at hnf
    unfold p1Step
    dsimp only
    rw [he]
    dsimp only
    rw [if_neg hnf, if_pos hov]
  · intro err h
    unfold repackRun
    rw [h]

/-- Witness for C3: a two-byte slot, a six-byte replacement and a
free-space window of two bytes — the repack aborts and produces no
output image. -/
theorem c3_witness :
    repackRun 4 6 [.canon 0 0 0 "ABCDE".toList] [66, 0] = none :=
  (c3_free_space_abort 4 6 [.canon 0 0 0 "ABCDE".toList] [66, 0]
    (by decide)).2.2 .outOfSpace (by rfl)

/-- C5 counterexample: the slot length of a canonical entry is computed
with `rom_data.find` on the buffer already mutated by earlier entries,
not on the pristine image.  Concretely: the pristine image is
42 42 42 42 00; entry 0 (offset 0, new text "A") fits in place and pads
the rest of its slot with terminators; entry 1 (offset 2) then measures
a slot of length 1 against the padded buffer, while its pristine
distance to the terminator is 3. -/
theorem c5_counterexample :
    ¬ ∀ (romEnd : Nat) (pristine : List Nat) (freeStart : Nat)
        (entries : List RepackEntry) (k id p off : Nat) (text : List Char)
        (rest : List RepackEntry),
        entries.drop k = .canon id p off text :: rest →
        p1SlotLength romEnd pristine freeStart entries k = none ∨
        p1SlotLength romEnd pristine freeStart entries k =
          some (slotLengthAt pristine off) := by
  intro h
  have := h 30 [66, 66, 66, 66, 0] 10
    [.canon 0 100 0 "A".toList, .canon 1 104 2 "BC".toList] 1 1 104 2
    "BC".toList [] (by rfl)
  rcases this with h' | h' <;> revert h' <;> decide

/-- C5 (amended): the slot length of a canonical entry is the distance
to the next terminator byte, inclusive, measured in the buffer as
already mutated by the earlier entries of the same pass; it equals the
pristine distance exactly when those earlier writes left the bytes from
the entry's offset through its pristine terminator unchanged — which
overlapping slots (and hence earlier in-place padding) can violate. -/
theorem c5_amended (romEnd : Nat) (pristine : List Nat) (freeStart : Nat)
    (entries : List RepackEntry) (k id p off stop : Nat) (text : List Char)
    (rest : List RepackEntry) (st : P1State)
    (h1 : runPass1 romEnd ⟨pristine, freeStart, []⟩ (entries.take k) = .ok st)
    (hk : entries.drop k = .canon id p off text :: rest)
    (hterm : findTerm pristine off terminatorByte = some stop)
    (hag : ∀ j, off ≤ j → j ≤ stop → st.rom[j]? = pristine[j]?) :
    p1SlotLength romEnd pristine freeStart entries k =
      some (slotLengthAt pristine off) := by
  unfold p1SlotLength
  rw [h1]
  dsimp only
  rw [hk]
  dsimp only
  rw [findTerm_congr terminatorByte hterm hag]
  unfold slotLengthAt
  rw [hterm]

/-- Witness for C5 (amended): two canonical entries with disjoint slots;
after entry 0 is rewritten in place, entry 1 still measures its pristine
slot length 3. -/
theorem c5_witness :
    p1SlotLength 30 [66, 0, 66, 66, 0] 10
      [.canon 0 100 0 "A".toList, .canon 1 104 2 "BC".toList] 1 =
      some (slotLengthAt [66, 0, 66, 66, 0] 2) :=
  c5_amended 30 [66, 0, 66, 66, 0] 10
    [.canon 0 100 0 "A".toList, .canon 1 104 2 "BC".toList] 1 1 104 2 4
    "BC".toList [] ⟨[65, 0, 66, 66, 0], 10, [(0, 0)]⟩
    (by rfl) (by rfl) (by rfl)
    (by intro j h1 h2; interval_cases j <;> rfl)

/-- Char.ofNat round-trips on every valid scalar value. -/
theorem charToNat_ofNat (n : Nat)
    (h : n < 0xD800 ∨ (0xE000 ≤ n ∧ n < 0x110000)) :
    (Char.ofNat n).toNat = n := by
  have hv : n.isValidChar := by
    rcases h with h | ⟨h1, h2⟩
    · exact Or.inl h
    · exact Or.inr ⟨by omega, h2⟩
  unfold Char.ofNat
  rw [dif_pos hv]
  rfl

/-- The byte 0x0A substitution of `read_string_from` is the identity. -/
theorem replaceNewlines_id (l : List Nat) : replaceNewlines l = l := by
  unfold replaceNewlines newlineByte
  have h : (fun b => if b = (10 : Nat) then 10 else b) = id := by
    funext b
    by_cases hb : b = 10 <;> simp [hb]
  rw [h, List.map_id]

/-- The newline substitution of `encode_string` is the identity. -/
theorem processedText_id (l : List Char) : processedText l = l := by
  unfold processedText newlineByte
  have h : (fun c => if c = '\n' then Char.ofNat 10 else c) = id := by
    funext c
    by_cases hc : c = '\n'
    · subst hc
      simp
    · simp [hc]
  rw [h, List.map_id]

/-- Re-encoding inverts the modelled codec on a double-byte pair. -/
theorem sjisEncodeChar_twoByte (b t : Nat) (hb : isLead b = true)
    (ht : isTrail t = true) : sjisEncodeChar (twoByteChar b t) = [b, t] := by
  unfold isLead at hb
  unfold isTrail at ht
  simp only [Bool.or_eq_true, Bool.and_eq_true, decide_eq_true_eq] at hb ht
  have hA : leadIdx b ≤ 41 := by unfold leadIdx; split_ifs <;> omega
  have hB : trailIdx t ≤ 187 := by unfold trailIdx; split_ifs <;> omega
  have hv : (twoByteChar b t).toNat = 0x4E00 + leadIdx b * 188 + trailIdx t := by
    unfold twoByteChar
    exact charToNat_ofNat _ (Or.inl (by omega))
  unfold sjisEncodeChar
  rw [hv]
  rw [if_neg (by omega), if_neg (by omega), if_pos (by omega)]
  have hdiv : (0x4E00 + leadIdx b * 188 + trailIdx t - 0x4E00) / 188 = leadIdx b := by
    omega
  have hmod : (0x4E00 + leadIdx b * 188 + trailIdx t - 0x4E00) % 188 = trailIdx t := by
    omega
  dsimp only
  rw [hdiv, hmod]
  have h1 : (if leadIdx b < 31 then 0x81 + leadIdx b else 0xE0 + (leadIdx b - 31)) = b := by
    unfold leadIdx
    rcases hb with ⟨hb1, hb2⟩ | ⟨hb1, hb2⟩ <;> split_ifs <;> omega
  have h2 : (if trailIdx t < 63 then 0x40 + trailIdx t else 0x80 + (trailIdx t - 63)) = t := by
    unfold trailIdx
    rcases ht with ⟨ht1, ht2⟩ | ⟨ht1, ht2⟩ <;> split_ifs <;> omega
  rw [h1, h2]

/-- Re-encoding a cleanly decoded byte run character by character gives
back exactly the original bytes. -/
theorem sjisEncode_decode_aux :
    ∀ (n : Nat) (run : List Nat), run.length ≤ n → decodeClean run = true →
      (decodeSjis run).flatMap sjisEncodeChar = run := by
  intro n
  induction n with
  | zero =>
    intro run hl _
    have : run = [] := List.eq_nil_of_length_eq_zero (Nat.le_zero.mp hl)
    subst this
    rfl
  | succ n ih =>
    intro run hl hc
    cases run with
    | nil => rfl
    | cons b rest =>
      rw [decodeClean.eq_def] at hc
      rw [decodeSjis.eq_def]
      dsimp only at hc ⊢
      by_cases h1 : b < 0x80
      · rw [if_pos h1] at hc ⊢
        simp only [List.flatMap_cons]
        rw [ih rest (by simp only [List.length_cons] at hl; omega) hc]
        have he : sjisEncodeChar (Char.ofNat b) = [b] := by
          unfold sjisEncodeChar
          rw [charToNat_ofNat b (Or.inl (by omega))]
          rw [if_pos h1]
        rw [he]
        rfl
      · rw [if_neg h1] at hc ⊢
        by_cases h2 : (0xA1 ≤ b && b ≤ 0xDF) = true
        · rw [if_pos h2] at hc ⊢
          simp only [Bool.and_eq_true, decide_eq_true_eq] at h2
          simp only [List.flatMap_cons]
          rw [ih rest (by simp only [List.length_cons] at hl; omega) hc]
          have he : sjisEncodeChar (Char.ofNat (0xFF61 + (b - 0xA1))) = [b] := by
            unfold sjisEncodeChar
            rw [charToNat_ofNat _ (Or.inr (by omega))]
            rw [if_neg (by omega), if_pos (by omega)]
            have : 0xA1 + (0xFF61 + (b - 0xA1) - 0xFF61) = b := by omega
            rw [this]
          rw [he]
          rfl
        · rw [if_neg h2] at hc ⊢
          by_cases h3 : isLead b = true
          · rw [if_pos h3] at hc ⊢
            cases rest with
            | nil => simp at hc
            | cons t rest2 =>
              dsimp only at hc ⊢
              by_cases h4 : isTrail t = true
              · rw [if_pos h4] at hc ⊢
                simp only [List.flatMap_cons]
                rw [ih rest2 (by simp only [List.length_cons] at hl; omega) hc]
                rw [sjisEncodeChar_twoByte b t h3 h4]
                rfl
              · rw [if_neg h4] at hc
                simp at hc
          · rw [if_neg h3] at hc
            simp at hc

/-- On text the hex tag pattern never matches, the part loop is exactly
the character-wise shift_jis encoding with no warning. -/
theorem encodeGoF_noTag :
    ∀ (fuel : Nat) (text : List Char), text.length ≤ fuel →
      containsTag text = false →
      encodeGoF fuel text = some (text.flatMap sjisEncodeChar, []) := by
  intro fuel
  induction fuel with
  | zero =>
    intro text hl _
    have : text = [] := List.eq_nil_of_length_eq_zero (Nat.le_zero.mp hl)
    subst this
    rfl
  | succ fuel ih =>
    intro text hl ht
    cases text with
    | nil => rfl
    | cons c rest =>
      simp only [containsTag, Bool.or_eq_false_iff] at ht
      obtain ⟨ht1, ht2⟩ := ht
      have htm : tagMatchAt (c :: rest) = none := by
        cases htc : tagMatchAt (c :: rest) with
        | none => rfl
        | some v => rw [htc] at ht1; simp at ht1
      simp only [encodeGoF]
      rw [htm]
      dsimp only
      rw [ih rest (by simp only [List.length_cons] at hl; omega) ht2]
      simp [tryEncodePart]

/-- C1 counterexample: `encode_string` always appends the terminator
byte, so re-encoding the decoded text of the terminator-free, cleanly
decodable run 41 never returns 41 but 41 00; moreover a clean ASCII run
shaped like an escape token — here `<$41$>` — is parsed as a tag and
re-encodes to 41 34 31 00, not to itself. -/
theorem c1_counterexample :
    (¬ ∀ (run : List Nat), (∀ b ∈ run, b ≠ terminatorByte) →
        decodeClean run = true →
        encodeString (decodeSjis (replaceNewlines run)) = some run) ∧
    encodeString (decodeSjis (replaceNewlines [0x3C, 0x24, 0x34, 0x31, 0x24, 0x3E])) =
      some [0x41, 0x34, 0x31, 0x00] := by
  constructor
  · intro h
    exact absurd (h [0x41] (by decide) (by decide)) (by decide)
  · decide

/-- C1 (amended): for every byte run without the terminator byte whose
decoding consumes all bytes without escape fallback, and whose decoded
text nowhere matches the encoder's hex tag pattern, re-encoding returns
exactly the original run with the terminator byte appended. -/
theorem c1_amended (run : List Nat)
    (hterm : ∀ b ∈ run, b ≠ terminatorByte)
    (hclean : decodeClean run = true)
    (htag : containsTag (decodeSjis run) = false) :
    encodeString (decodeSjis (replaceNewlines run)) =
      some (run ++ [terminatorByte]) := by
  rw [replaceNewlines_id]
  unfold encodeString encodeStringFull encodeGo
  rw [processedText_id]
  rw [encodeGoF_noTag (decodeSjis run).length (decodeSjis run) (Nat.le_refl _) htag]
  rw [sjisEncode_decode_aux run.length run (Nat.le_refl _) hclean]
  rfl

/-- Witness for C1 (amended): the two-byte ASCII run 41 42 round-trips
to 41 42 00. -/
theorem c1_witness :
    encodeString (decodeSjis (replaceNewlines [0x41, 0x42])) =
      some ([0x41, 0x42] ++ [terminatorByte]) :=
  c1_amended [0x41, 0x42] (by decide) (by decide) (by decide)

/-- C8 counterexample: the run FF FE 00 does NOT decode to a single
token `<$FFFE$>` (the codec reports the two illegal bytes separately),
and even the string `<$FFFE$>` does not re-encode to FF FE 00 (the tag's
hex digits leak into the output as ASCII via the regex capture group). -/
theorem c8_counterexample :
    ¬ (readStringFrom [0xFF, 0xFE, 0x00] 0 terminatorByte =
        some "<$FFFE$>".toList ∧
       isValidString (some "<$FFFE$>".toList) = false ∧
       encodeString "<$FFFE$>".toList = some [0xFF, 0xFE, 0x00]) := by
  decide

/-- C8 (amended): the run FF FE 00 decodes to the two one-byte escape
tokens `<$FF$><$FE$>`; the classifier rejects that string; re-encoding
it yields FF 46 46 FE 46 45 00 — each token's bytes followed by its hex
digits encoded as ASCII (the `re.split` capture-group leak), then the
terminator — and for comparison the single token `<$FFFE$>` re-encodes
to FF FE 46 46 46 45 00. -/
theorem c8_amended :
    readStringFrom [0xFF, 0xFE, 0x00] 0 terminatorByte =
      some "<$FF$><$FE$>".toList ∧
    isValidString (some "<$FF$><$FE$>".toList) = false ∧
    encodeString "<$FF$><$FE$>".toList =
      some [0xFF, 0x46, 0x46, 0xFE, 0x46, 0x45, 0x00] ∧
    encodeString "<$FFFE$>".toList =
      some [0xFF, 0xFE, 0x46, 0x46, 0x46, 0x45, 0x00] := by
  decide

/-- C9 counterexample: encoding a character outside the repertoire
substitutes the replacement byte 0x3F, but surfaces NO warning: the
WARNING branch of `encode_string` only fires when `encode` raises, which
`errors="replace"` prevents, so the lossy fallback is silent. -/
theorem c9_counterexample :
    ¬ ∀ (text : List Char) (c : Char), c ∈ text →
        sjisEncodeChar c = [0x3F] → c.toNat ≠ 0x3F →
        encodeWarnings text ≠ [] := by
  intro h
  exact absurd (h ['é'] 'é' (by decide) (by decide) (by decide)) (by decide)

/-- C9 (amended): a character outside the native repertoire is encoded
as the replacement byte 0x3F and the call does not fail (for tag-free
text the encoder always returns bytes), but the substitution is silent:
the warning list is always empty because `errors="replace"` never lets
the encoder raise into the WARNING handler. -/
theorem c9_amended (text : List Char) (c : Char)
    (hmem : c ∈ text) (hoor : sjisEncodeChar c = [0x3F])
    (htag : containsTag (processedText text) = false) :
    ∃ bs, encodeString text = some bs ∧ 0x3F ∈ bs ∧
      encodeWarnings text = [] := by
  unfold encodeString encodeStringFull encodeWarnings encodeStringFull encodeGo
  rw [encodeGoF_noTag (processedText text).length (processedText text)
    (Nat.le_refl _) htag]
  refine ⟨(processedText text).flatMap sjisEncodeChar ++ [terminatorByte],
    rfl, ?_, rfl⟩
  refine List.mem_append.mpr (Or.inl ?_)
  refine List.mem_flatMap.mpr ⟨c, ?_, ?_⟩
  · rw [processedText_id]
    exact hmem
  · rw [hoor]
    exact List.mem_singleton.mpr rfl

/-- Witness for C9 (amended): the single character é (U+00E9, not in
shift_jis) encodes to 3F 00 with no warning. -/
theorem c9_witness :
    ∃ bs, encodeString ['é'] = some bs ∧ 0x3F ∈ bs ∧
      encodeWarnings ['é'] = [] :=
  c9_amended ['é'] 'é' (by decide) (by decide) (by decide)
